import Mathlib

/-
  Verification of kernel/sched/power.c and kernel/sched/armpmu_lib.c:
  a PMU-based per-CPU energy estimator and bang-bang power limiter.

  Machine integers are modelled as Nat / Int with explicit reduction:
  u32 values live in [0, 2^32), s64 values are wrapped with `wrap64`
  (two's-complement wraparound into [-2^63, 2^63)).
-/

/-- Reduce a natural number to its unsigned 32-bit value. -/
def u32 (n : Nat) : Nat := n % 2^32

/-- Convert a C `int`/`s64` value to the `__u32` it becomes when passed to a
function expecting an unsigned 32-bit argument (two's-complement reduction). -/
def u32ofInt (x : Int) : Nat := (x % 2^32).toNat

/-- Two's-complement wraparound of an integer into the signed 64-bit range
`[-2^63, 2^63)`; this is the value an s64 variable holds after an
arithmetic operation. -/
def wrap64 (x : Int) : Int := (x + 2^63) % 2^64 - 2^63

/-- Unsigned-long (32-bit) subtraction `a - b`, as computed by C on
`unsigned long` operands on this 32-bit platform. -/
def sub32 (a b : Nat) : Nat := (a + (2^32 - b % 2^32)) % 2^32

/-- The ARMv7 PMU register state visible to this code, one bank per core.
Modelled from the spec: the raw coprocessor register access primitives
(macros `MRC_PMU`/`MCR_PMU` and the register names, declared in the missing
header armpmu_lib.h) are treated as an opaque counter-bank device; the
fields below model the architectural registers the two source files touch.
`evtyper`/`evcntr` are the banked per-slot event-type and counter-value
registers accessed through the selection register `selr` (PMSELR);
`ccnt` is the dedicated cycle counter (PMCCNTR); `ovf` holds the overflow
flags (PMOVSR, bit 31 belongs to the cycle counter); `cnten` the per-counter
enable bits (PMCNTENSET); `en` the global enable bit PMCR.E; `userenr` the
user-mode access register PMUSERENR. -/
structure PmuState where
  en : Bool
  selr : Nat
  evtyper : Nat → Nat
  evcntr : Nat → Nat
  ccnt : Nat
  ovf : Nat → Bool
  cnten : Nat → Bool
  userenr : Nat

/-- Modelled from the spec: writing PMCR (missing header armpmu_lib.h).
Bit 0 is the global enable; bit 1 (write-only) zeroes every programmable
event counter; bit 2 (write-only) zeroes the cycle counter. -/
def wr_PMCR (st : PmuState) (v : Nat) : PmuState :=
  { st with
    en := (u32 v).testBit 0
    evcntr := if (u32 v).testBit 1 then fun _ => 0 else st.evcntr
    ccnt := if (u32 v).testBit 2 then 0 else st.ccnt }

/-- Modelled from the spec: reading PMCR returns the enable bit (the reset
bits 1 and 2 read as zero). -/
def rd_PMCR (st : PmuState) : Nat := if st.en then 1 else 0

/-- Modelled from the spec: writing the counter-selection register PMSELR. -/
def wr_PMSELR (st : PmuState) (v : Nat) : PmuState := { st with selr := u32 v }

/-- Modelled from the spec: writing PMXEVTYPER programs the event type of the
slot currently selected by PMSELR (the hardware uses the low five bits). -/
def wr_PMXEVTYPER (st : PmuState) (v : Nat) : PmuState :=
  { st with evtyper := fun i => if i = st.selr % 32 then u32 v else st.evtyper i }

/-- Modelled from the spec: reading PMXEVCNTR returns the counter value of
the slot currently selected by PMSELR. -/
def rd_PMXEVCNTR (st : PmuState) : Nat := st.evcntr (st.selr % 32)

/-- Modelled from the spec: reading the dedicated cycle counter PMCCNTR. -/
def rd_PMCCNTR (st : PmuState) : Nat := st.ccnt

/-- Modelled from the spec: writing PMCNTENSET sets the per-counter enable
bit of every counter whose bit is one in the written value. -/
def wr_PMCNTENSET (st : PmuState) (v : Nat) : PmuState :=
  { st with cnten := fun i => st.cnten i || (u32 v).testBit i }

/-- Modelled from the spec: writing PMOVSR clears every overflow flag whose
bit is one in the written value (write-one-to-clear). -/
def wr_PMOVSR (st : PmuState) (v : Nat) : PmuState :=
  { st with ovf := fun i => st.ovf i && !(u32 v).testBit i }

/-- Modelled from the spec: reading PMUSERENR (user-mode access enable). -/
def rd_PMUSERENR (st : PmuState) : Nat := st.userenr

/-- armpmu_lib.c `enable_pmn`: set all PMCNTENSET bits, then set the
"Enable" bit 0 of PMCR. -/
def enable_pmn (st : PmuState) : PmuState :=
  let st := wr_PMCNTENSET st 0xffffffff
  let cr := rd_PMCR st
  wr_PMCR st (cr ||| 1)

/-- armpmu_lib.c `disable_pmn`: clear the "Enable" bit 0 of PMCR
(`cr &= ~1` on a 32-bit register). -/
def disable_pmn (st : PmuState) : PmuState :=
  let cr := rd_PMCR st
  wr_PMCR st (cr &&& 0xfffffffe)

/-- armpmu_lib.c `set_pmn`: mask the slot to five bits, select it through
PMSELR and program the event through PMXEVTYPER. (The PMCR read in the
source is dead.) -/
def set_pmn (st : PmuState) (counter event : Nat) : PmuState :=
  let counter := counter &&& 0x1f
  let st := wr_PMSELR st counter
  wr_PMXEVTYPER st event

/-- armpmu_lib.c `read_pmn`: mask the slot to five bits, select it through
PMSELR and read PMXEVCNTR; returns the value together with the bank state
(the selection register changed). -/
def read_pmn (st : PmuState) (counter : Nat) : Nat × PmuState :=
  let counter := counter &&& 0x1f
  let st := wr_PMSELR st counter
  (rd_PMXEVCNTR st, st)

/-- armpmu_lib.c `reset_pmn`: set the "Event counter reset" bit 1 of PMCR,
then clear all overflow bits except the cycle counter's (PMOVSR mask
0x7fffffff). -/
def reset_pmn (st : PmuState) : PmuState :=
  let cr := rd_PMCR st
  let st := wr_PMCR st (cr ||| 2)
  wr_PMOVSR st 0x7fffffff

/-- armpmu_lib.c `reset_ccnt`: set the "Cycle counter reset" bit 2 of PMCR,
then clear only the cycle counter's overflow bit (PMOVSR mask 0x80000000). -/
def reset_ccnt (st : PmuState) : PmuState :=
  let cr := rd_PMCR st
  let st := wr_PMCR st (cr ||| 4)
  wr_PMOVSR st 0x80000000

/-- A concrete bank state used to instantiate theorems with hypotheses. -/
def pmuA : PmuState :=
  { en := true, selr := 0, evtyper := fun _ => 0, evcntr := fun i => i + 7
    ccnt := 99, ovf := fun _ => true, cnten := fun _ => false, userenr := 0 }

theorem ovsr_lo_bit (i : Nat) : (u32 0x7fffffff).testBit i = decide (i < 31) := by
  have h : (u32 0x7fffffff) = 2^31 - 1 := by decide
  rw [h, Nat.testBit_two_pow_sub_one]

theorem ovsr_hi_bit (i : Nat) : (u32 0x80000000).testBit i = decide (i = 31) := by
  have h : (u32 0x80000000) = 2^31 := by decide
  rw [h, Nat.testBit_two_pow]
  by_cases hi : i = 31 <;> simp [hi]
  omega

theorem reset_pmn_fields (st : PmuState) :
    (∀ i, (reset_pmn st).evcntr i = 0) ∧ (reset_pmn st).ccnt = st.ccnt ∧
    (∀ i, (reset_pmn st).ovf i = (st.ovf i && decide (31 ≤ i))) ∧
    (reset_pmn st).en = st.en := by
  by_cases hen : st.en <;>
  · have t1 : (u32 (rd_PMCR st ||| 2)).testBit 1 = true := by
      simp [rd_PMCR, hen]; decide
    have t2 : (u32 (rd_PMCR st ||| 2)).testBit 2 = false := by
      simp [rd_PMCR, hen]; decide
    have t0 : (u32 (rd_PMCR st ||| 2)).testBit 0 = st.en := by
      simp [rd_PMCR, hen]; decide
    refine ⟨?_, ?_, ?_, ?_⟩
    · intro i; simp [reset_pmn, wr_PMCR, wr_PMOVSR, t1]
    · simp [reset_pmn, wr_PMCR, wr_PMOVSR, t2]
    · intro i
      simp [reset_pmn, wr_PMCR, wr_PMOVSR, ovsr_lo_bit]
      by_cases hi : i < 31 <;> simp [hi] <;> omega
    · simp [reset_pmn, wr_PMCR, wr_PMOVSR, t0]

theorem reset_ccnt_fields (st : PmuState) :
    (∀ i, (reset_ccnt st).evcntr i = st.evcntr i) ∧ (reset_ccnt st).ccnt = 0 ∧
    (∀ i, (reset_ccnt st).ovf i = (st.ovf i && decide (i ≠ 31))) ∧
    (reset_ccnt st).en = st.en := by
  by_cases hen : st.en <;>
  · have t1 : (u32 (rd_PMCR st ||| 4)).testBit 1 = false := by
      simp [rd_PMCR, hen]; decide
    have t2 : (u32 (rd_PMCR st ||| 4)).testBit 2 = true := by
      simp [rd_PMCR, hen]; decide
    have t0 : (u32 (rd_PMCR st ||| 4)).testBit 0 = st.en := by
      simp [rd_PMCR, hen]; decide
    refine ⟨?_, ?_, ?_, ?_⟩
    · intro i; simp [reset_ccnt, wr_PMCR, wr_PMOVSR, t1]
    · simp [reset_ccnt, wr_PMCR, wr_PMOVSR, t2]
    · intro i
      simp only [reset_ccnt, wr_PMCR, wr_PMOVSR, ovsr_hi_bit]
      by_cases hi : i = 31 <;> simp [hi]
    · simp [reset_ccnt, wr_PMCR, wr_PMOVSR, t0]

/-- Claim C9: `reset_pmn` zeroes every programmable slot and clears every
programmable-slot overflow flag (bits 0 to 30) while leaving the cycle
counter's value and overflow flag (bit 31) unchanged; dually `reset_ccnt`
zeroes only the cycle counter and clears only its overflow flag, leaving
every programmable slot value and every programmable-slot overflow flag
unchanged. -/
theorem reset_pmn_reset_ccnt_frame (st : PmuState) :
    ((∀ i, (reset_pmn st).evcntr i = 0) ∧
     (∀ i, i < 31 → (reset_pmn st).ovf i = false) ∧
     (reset_pmn st).ccnt = st.ccnt ∧
     (reset_pmn st).ovf 31 = st.ovf 31) ∧
    ((reset_ccnt st).ccnt = 0 ∧
     (reset_ccnt st).ovf 31 = false ∧
     (∀ i, (reset_ccnt st).evcntr i = st.evcntr i) ∧
     (∀ i, i < 31 → (reset_ccnt st).ovf i = st.ovf i)) := by
  obtain ⟨p1, p2, p3, _⟩ := reset_pmn_fields st
  obtain ⟨c1, c2, c3, _⟩ := reset_ccnt_fields st
  refine ⟨⟨p1, ?_, p2, ?_⟩, ?_, ?_, c1, ?_⟩
  · intro i hi
    rw [p3 i]
    simp [Nat.not_le.mpr hi]
  · rw [p3 31]
    simp
  · exact c2
  · rw [c3 31]
    simp
  · intro i hi
    rw [c3 i]
    simp [Nat.ne_of_lt hi]

/-- Witness for claim C9 at the concrete bank state `pmuA`. -/
theorem reset_pmn_reset_ccnt_frame_witness :
    (reset_pmn pmuA).evcntr 2 = 0 ∧ (reset_pmn pmuA).ovf 3 = false ∧
    (reset_pmn pmuA).ccnt = 99 ∧ (reset_pmn pmuA).ovf 31 = true ∧
    (reset_ccnt pmuA).ccnt = 0 ∧ (reset_ccnt pmuA).ovf 31 = false ∧
    (reset_ccnt pmuA).evcntr 2 = 9 ∧ (reset_ccnt pmuA).ovf 3 = true := by
  obtain ⟨⟨h1, h2, h3, h4⟩, h5, h6, h7, h8⟩ := reset_pmn_reset_ccnt_frame pmuA
  exact ⟨h1 2, h2 3 (by decide), h3.trans (by decide), h4.trans (by decide),
    h5, h6, (h7 2).trans (by decide), (h8 3 (by decide)).trans (by decide)⟩

/-- One term of an energy model (power.c `struct energy_model`): an event
number (or `EM_PMCCNTR` = -1 for the cycle counter, `EM_LAST` = -2 as the
array terminator) and a signed fixed-point weight (scale 1e-12). -/
structure EMEntry where
  event : Int
  weight : Int
deriving DecidableEq

def EM_PMCCNTR : Int := -1

def EM_LAST : Int := -2

/-- Modelled from the spec: ARMv7 PMU event numbers from the missing header
armpmu_lib.h (the numeric values do not influence any claim; they only need
to be the distinct nonnegative event identifiers used by the two models). -/
def ASE_SPEC : Int := 0x74
def BR_MIS_PRED : Int := 0x10
def DP_SPEC : Int := 0x73
def L2D_CACHE_REFILL : Int := 0x17
def L2D_CACHE_WB : Int := 0x18
def L1D_TLB_REFILL : Int := 0x05
def VFP_SPEC : Int := 0x75

/-- power.c `energy_model_a15` with the `EM_TO_INT` weights evaluated
(double-precision division by 1e-12 truncated toward zero, as the C
compiler computes them); the `EM_LAST` terminator is represented by the
end of the list. -/
def energy_model_a15 : List EMEntry :=
  [⟨ASE_SPEC, 6448446⟩, ⟨BR_MIS_PRED, -131163⟩, ⟨DP_SPEC, 246⟩,
   ⟨L2D_CACHE_REFILL, 1581324⟩, ⟨L2D_CACHE_WB, -8824135⟩,
   ⟨EM_PMCCNTR, 760⟩, ⟨VFP_SPEC, 1584⟩]

/-- power.c `energy_model_a7`, same conventions as `energy_model_a15`. -/
def energy_model_a7 : List EMEntry :=
  [⟨BR_MIS_PRED, 616⟩, ⟨L1D_TLB_REFILL, 32521⟩, ⟨L2D_CACHE_REFILL, -55918⟩,
   ⟨L2D_CACHE_WB, 181504⟩, ⟨EM_PMCCNTR, 101⟩]

/-- power.c `IS_A7`: A7 cores always come first. -/
def IS_A7 (cpu : Nat) : Bool := cpu < 4

/-- power.c `energy_model`: model selection by core class. -/
def energy_model (cpu : Nat) : List EMEntry :=
  if IS_A7 cpu then energy_model_a7 else energy_model_a15

/-- The loop of power.c `initialize_pmu`: walks the model with position `i`
and index fix `j` (set to -1 once the cycle-counter term is passed),
programming `set_pmn(i + j, event)` for every term that is neither the
cycle counter nor the terminator. -/
def init_pmu_loop : PmuState → Nat → Int → List EMEntry → PmuState
  | st, _, _, [] => st
  | st, i, j, t :: r =>
    if t.event = EM_LAST then st
    else if t.event = EM_PMCCNTR then init_pmu_loop st (i+1) (-1) r
    else init_pmu_loop (set_pmn st (u32ofInt ((i : Int) + j)) (u32ofInt t.event)) (i+1) j r

/-- power.c `initialize_pmu`. -/
def init_pmu (cpu : Nat) (st : PmuState) : PmuState :=
  init_pmu_loop st 0 0 (energy_model cpu)

/-- The loop of power.c `evaluate_model`: same walk as the initialization
loop, sampling PMCCNTR for the cycle-counter term and `read_pmn(i + j)`
for every other term, and accumulating `weight * counter` in a signed
64-bit accumulator (each s64 operation wraps). The bank state is threaded
because `read_pmn` writes the selection register. -/
def evaluate_model_loop : PmuState → Int → Nat → Int → List EMEntry → Int × PmuState
  | st, acc, _, _, [] => (acc, st)
  | st, acc, i, j, t :: r =>
    if t.event = EM_LAST then (acc, st)
    else if t.event = EM_PMCCNTR then
      let counter := rd_PMCCNTR st
      evaluate_model_loop st (wrap64 (acc + wrap64 (t.weight * (counter : Int)))) (i+1) (-1) r
    else
      let p := read_pmn st (u32ofInt ((i : Int) + j))
      evaluate_model_loop p.2 (wrap64 (acc + wrap64 (t.weight * (p.1 : Int)))) (i+1) j r

/-- power.c `evaluate_model`. -/
def evaluate_model (cpu : Nat) (st : PmuState) : Int × PmuState :=
  evaluate_model_loop st 0 0 0 (energy_model cpu)

/-- The per-term slot binding induced by the `i + j` indexing shared by the
initialization and evaluation loops: `none` for the cycle-counter term
(sampled from PMCCNTR, consuming no programmable slot), `some slot`
otherwise; stops at the `EM_LAST` terminator. -/
def eval_slots : Nat → Int → List EMEntry → List (Option Nat)
  | _, _, [] => []
  | i, j, t :: r =>
    if t.event = EM_LAST then []
    else if t.event = EM_PMCCNTR then none :: eval_slots (i+1) (-1) r
    else some (u32ofInt ((i : Int) + j)) :: eval_slots (i+1) j r

/-- The weights of the terms actually processed (stops at `EM_LAST`). -/
def term_weights : List EMEntry → List Int
  | [] => []
  | t :: r => if t.event = EM_LAST then [] else t.weight :: term_weights r

/-- Sample one slot binding from a bank state: the cycle counter for
`none`, `read_pmn` for `some slot`. -/
def slot_read (st : PmuState) : Option Nat → Int
  | none => (rd_PMCCNTR st : Int)
  | some s => ((read_pmn st s).1 : Int)

/-- The per-term (weight, sampled counter) assignment an evaluation over
bank state `st` sees. -/
def term_pairs (st : PmuState) (i : Nat) (j : Int) (l : List EMEntry) : List (Int × Int) :=
  (term_weights l).zip ((eval_slots i j l).map (slot_read st))

/-- The signed 64-bit value of the sum of weight-times-counter products of
a term assignment. -/
def wsum (l : List (Int × Int)) : Int :=
  wrap64 ((l.map (fun p => p.1 * p.2)).sum)

/-- The sequence of `set_pmn (slot, event)` calls the initialization loop
performs (in order, one per non-cycle-counter term, stopping at the
terminator). -/
def prog_list : Nat → Int → List EMEntry → List (Nat × Int)
  | _, _, [] => []
  | i, j, t :: r =>
    if t.event = EM_LAST then []
    else if t.event = EM_PMCCNTR then prog_list (i+1) (-1) r
    else (u32ofInt ((i : Int) + j), t.event) :: prog_list (i+1) j r

/-- Modelled from the spec: the slot assignment the specification words
describe for initialization — slot indices are model-position-derived,
with the index of the cycle-counter term skipped permanently rather than
compacted away (each term keeps slot = its model position). -/
def prog_list_skip : Nat → List EMEntry → List (Nat × Int)
  | _, [] => []
  | i, t :: r =>
    if t.event = EM_LAST then []
    else if t.event = EM_PMCCNTR then prog_list_skip (i+1) r
    else (i, t.event) :: prog_list_skip (i+1) r

theorem init_pmu_loop_foldl (l : List EMEntry) : ∀ (st : PmuState) (i : Nat) (j : Int),
    init_pmu_loop st i j l =
      (prog_list i j l).foldl (fun s p => set_pmn s p.1 (u32ofInt p.2)) st := by
  have hne : EM_PMCCNTR ≠ EM_LAST := by decide
  induction l with
  | nil => intro st i j; rfl
  | cons t r ih =>
    intro st i j
    by_cases hL : t.event = EM_LAST
    · simp [init_pmu_loop, prog_list, hL]
    · by_cases hC : t.event = EM_PMCCNTR
      · simp [init_pmu_loop, prog_list, hL, hC, ih, hne]
      · simp [init_pmu_loop, prog_list, hL, hC, ih]

theorem eval_slots_read_back (l : List EMEntry) : ∀ (i : Nat) (j : Int),
    (eval_slots i j l).filterMap id = (prog_list i j l).map Prod.fst := by
  have hne : EM_PMCCNTR ≠ EM_LAST := by decide
  induction l with
  | nil => intro i j; rfl
  | cons t r ih =>
    intro i j
    by_cases hL : t.event = EM_LAST
    · simp [eval_slots, prog_list, hL]
    · by_cases hC : t.event = EM_PMCCNTR
      · simp [eval_slots, prog_list, hL, hC, ih, hne]
      · simp [eval_slots, prog_list, hL, hC, ih]

theorem prog_list_clean (l : List EMEntry) : ∀ (i : Nat) (j : Int),
    (∀ t ∈ l, t.event ≠ EM_LAST ∧ t.event ≠ EM_PMCCNTR) →
    0 ≤ (i : Int) + j → (i : Int) + j + l.length ≤ 2^32 →
    (prog_list i j l).map Prod.fst =
      (List.range l.length).map (fun k => ((i : Int) + j).toNat + k) ∧
    (prog_list i j l).map Prod.snd = l.map EMEntry.event := by
  induction l with
  | nil => intro i j _ _ _; simp [prog_list]
  | cons t r ih =>
    intro i j hcl hge hle
    obtain ⟨hL, hC⟩ := hcl t (by simp)
    simp only [List.length_cons] at hle
    push_cast at hle
    have hslot : u32ofInt ((i : Int) + j) = ((i : Int) + j).toNat := by
      unfold u32ofInt
      omega
    obtain ⟨ih1, ih2⟩ := ih (i + 1) j (fun t ht => hcl t (by simp [ht]))
      (by push_cast; omega) (by push_cast; omega)
    refine ⟨?_, ?_⟩
    · simp only [prog_list, if_neg hL, if_neg hC, List.map_cons, hslot,
        List.length_cons, List.range_succ_eq_map, ih1, List.map_map,
        List.cons.injEq]
      refine ⟨rfl, List.map_congr_left ?_⟩
      intro k _
      simp only [Function.comp_apply]
      omega
    · simp only [prog_list, if_neg hL, if_neg hC, List.map_cons, ih2]

theorem prog_list_append_clean (pre : List EMEntry) : ∀ (rest : List EMEntry) (i : Nat) (j : Int),
    (∀ t ∈ pre, t.event ≠ EM_LAST ∧ t.event ≠ EM_PMCCNTR) →
    prog_list i j (pre ++ rest) =
      prog_list i j pre ++ prog_list (i + pre.length) j rest := by
  induction pre with
  | nil => intro rest i j _; simp [prog_list]
  | cons t r ih =>
    intro rest i j hcl
    obtain ⟨hL, hC⟩ := hcl t (by simp)
    have harith : i + 1 + r.length = i + (r.length + 1) := by omega
    simp only [List.cons_append, prog_list, if_neg hL, if_neg hC, List.length_cons,
      List.append_eq]
    rw [ih rest (i + 1) j (fun t ht => hcl t (by simp [ht])), harith]

/-- The a15 model split around its unique cycle-counter term. -/
def a15_pre : List EMEntry :=
  [⟨ASE_SPEC, 6448446⟩, ⟨BR_MIS_PRED, -131163⟩, ⟨DP_SPEC, 246⟩,
   ⟨L2D_CACHE_REFILL, 1581324⟩, ⟨L2D_CACHE_WB, -8824135⟩]

def a15_ccnt : EMEntry := ⟨EM_PMCCNTR, 760⟩

def a15_post : List EMEntry := [⟨VFP_SPEC, 1584⟩]

/-- Claim C2, counterexample: the claim says the slot indices skip one index
permanently once the cycle-counter term is passed rather than compacting the
skipped index away. In the code the `j = -1` fix compacts: for the a15 model
the term after the cycle-counter term (`VFP_SPEC`, model position 6) is
programmed into slot 5, producing the gap-free slot sequence 0..5, whereas
the skipping assignment the claim describes would program it into slot 6 and
leave slot 5 unused. -/
theorem initialize_slots_skip_counterexample :
    (prog_list 0 0 energy_model_a15).map Prod.fst = [0, 1, 2, 3, 4, 5] ∧
    (prog_list_skip 0 energy_model_a15).map Prod.fst = [0, 1, 2, 3, 4, 6] ∧
    ¬ ((prog_list 0 0 energy_model_a15).map Prod.fst
        = (prog_list_skip 0 energy_model_a15).map Prod.fst) ∧
    (init_pmu 4 pmuA).evtyper 5 = u32ofInt VFP_SPEC ∧
    (init_pmu 4 pmuA).evtyper 6 = 0 := by decide

/-- Claim C2 (amended): for every model with exactly one cycle-counter term
and no stray terminator, initialization programs one hardware slot per
non-cycle-counter term, in term order, with the cycle-counter term not
consuming a programmable slot, and the slot indices are compacted — every
term after the cycle-counter term uses its model position minus one, so the
programmed slots are exactly 0..(n-2) consecutively with no skipped index —
and evaluation reads back exactly the same slot assignment. -/
theorem initialize_slots_compacted (pre post : List EMEntry) (c : EMEntry)
    (hc : c.event = EM_PMCCNTR)
    (hpre : ∀ t ∈ pre, t.event ≠ EM_LAST ∧ t.event ≠ EM_PMCCNTR)
    (hpost : ∀ t ∈ post, t.event ≠ EM_LAST ∧ t.event ≠ EM_PMCCNTR)
    (hlen : pre.length + post.length < 2^32) :
    (prog_list 0 0 (pre ++ c :: post)).map Prod.snd = (pre ++ post).map EMEntry.event ∧
    (prog_list 0 0 (pre ++ c :: post)).map Prod.fst = List.range (pre.length + post.length) ∧
    (eval_slots 0 0 (pre ++ c :: post)).filterMap id
      = (prog_list 0 0 (pre ++ c :: post)).map Prod.fst ∧
    ∀ st, init_pmu_loop st 0 0 (pre ++ c :: post) =
      (prog_list 0 0 (pre ++ c :: post)).foldl
        (fun s p => set_pmn s p.1 (u32ofInt p.2)) st := by
  have hne : EM_PMCCNTR ≠ EM_LAST := by decide
  have hdec : prog_list 0 0 (pre ++ c :: post)
      = prog_list 0 0 pre ++ prog_list (pre.length + 1) (-1) post := by
    rw [prog_list_append_clean pre (c :: post) 0 0 hpre]
    have h0 : 0 + pre.length = pre.length := by omega
    rw [h0]
    simp [prog_list, hc, hne]
  obtain ⟨hpre1, hpre2⟩ := prog_list_clean pre 0 0 hpre (by omega)
    (by push_cast; omega)
  obtain ⟨hpost1, hpost2⟩ := prog_list_clean post (pre.length + 1) (-1) hpost
    (by push_cast; omega) (by push_cast; omega)
  refine ⟨?_, ?_, eval_slots_read_back _ 0 0, fun st => init_pmu_loop_foldl _ st 0 0⟩
  · rw [hdec]
    simp only [List.map_append, hpre2, hpost2]
  · rw [hdec]
    simp only [List.map_append, hpre1, hpost1, List.range_add]
    have h1 : List.map (fun k => (((0 : Nat) : Int) + 0).toNat + k) (List.range pre.length)
        = List.map (fun k => k) (List.range pre.length) :=
      List.map_congr_left (fun k _ => by omega)
    have h2 : List.map (fun k => (((pre.length + 1 : Nat) : Int) + (-1)).toNat + k)
          (List.range post.length)
        = List.map (fun k => pre.length + k) (List.range post.length) :=
      List.map_congr_left (fun k _ => by omega)
    rw [h1, h2]
    simp

/-- Witness for the amended claim C2 at the concrete a15 model. -/
theorem initialize_slots_compacted_witness :
    (prog_list 0 0 (a15_pre ++ a15_ccnt :: a15_post)).map Prod.fst = List.range 6 ∧
    (prog_list 0 0 (a15_pre ++ a15_ccnt :: a15_post)).map Prod.snd
      = (a15_pre ++ a15_post).map EMEntry.event := by
  obtain ⟨h1, h2, h3, h4⟩ := initialize_slots_compacted a15_pre a15_post a15_ccnt
    (by decide) (by decide) (by decide) (by decide)
  exact ⟨h2.trans (by decide), h1⟩

theorem wrap64_wrap_add (a b : Int) : wrap64 (wrap64 a + b) = wrap64 (a + b) := by
  unfold wrap64
  omega

theorem wrap64_add_wrap (a b : Int) : wrap64 (a + wrap64 b) = wrap64 (a + b) := by
  unfold wrap64
  omega

theorem slot_read_selr (st : PmuState) (v : Nat) (o : Option Nat) :
    slot_read (wr_PMSELR st v) o = slot_read st o := by
  cases o <;> simp [slot_read, read_pmn, wr_PMSELR, rd_PMXEVCNTR, rd_PMCCNTR]

theorem term_pairs_selr (st : PmuState) (v : Nat) (i : Nat) (j : Int) (l : List EMEntry) :
    term_pairs (wr_PMSELR st v) i j l = term_pairs st i j l := by
  unfold term_pairs
  rw [List.map_congr_left (fun o _ => slot_read_selr st v o)]

theorem eval_loop_wsum (l : List EMEntry) : ∀ (st : PmuState) (a : Int) (i : Nat) (j : Int),
    (evaluate_model_loop st (wrap64 a) i j l).1
      = wrap64 (a + ((term_pairs st i j l).map (fun p => p.1 * p.2)).sum) := by
  induction l with
  | nil =>
    intro st a i j
    simp [evaluate_model_loop, term_pairs, term_weights, eval_slots]
  | cons t r ih =>
    intro st a i j
    by_cases hL : t.event = EM_LAST
    · simp [evaluate_model_loop, term_pairs, term_weights, eval_slots, hL]
    · by_cases hC : t.event = EM_PMCCNTR
      · simp only [evaluate_model_loop, if_neg hL, if_pos hC]
        rw [wrap64_wrap_add, wrap64_add_wrap, ih]
        simp only [term_pairs, term_weights, eval_slots, if_neg hL, if_pos hC,
          List.map_cons, List.zip_cons_cons, List.sum_cons, slot_read]
        rw [← add_assoc]
      · simp only [evaluate_model_loop, if_neg hL, if_neg hC]
        rw [wrap64_wrap_add, wrap64_add_wrap, ih]
        have hst : (read_pmn st (u32ofInt ((i : Int) + j))).2
            = wr_PMSELR st (u32ofInt ((i : Int) + j) &&& 0x1f) := by
          simp [read_pmn]
        rw [hst, term_pairs_selr]
        simp only [term_pairs, term_weights, eval_slots, if_neg hL, if_neg hC,
          List.map_cons, List.zip_cons_cons, List.sum_cons, slot_read]
        rw [← add_assoc]

/-- Claim C1: for every CPU and every bank state (an assignment of counter
values to the model's terms), `evaluate_model` returns exactly the sum over
all terms of weight times sampled counter value as a signed 64-bit integer
(`wsum`), where the cycle-counter term samples the dedicated cycle counter
and every other term samples its bound programmable slot; the result is
never clamped (it is exactly the wrapped signed sum, negative when the sum
is negative), and permuting the per-term (weight, counter) assignment does
not change the value. -/
theorem evaluate_model_weighted_sum (cpu : Nat) (st : PmuState) :
    (evaluate_model cpu st).1 = wsum (term_pairs st 0 0 (energy_model cpu)) ∧
    ∀ l l' : List (Int × Int), l.Perm l' → wsum l = wsum l' := by
  constructor
  · have hz : wrap64 0 = 0 := by decide
    have h := eval_loop_wsum (energy_model cpu) st 0 0 0
    rw [hz] at h
    simpa [evaluate_model, wsum] using h
  · intro l l' hp
    unfold wsum
    rw [(hp.map _).sum_eq]

/-- Witness for claim C1: concrete evaluation on the a15 model over the
bank state `pmuA`, and order-independence on a concrete assignment. -/
theorem evaluate_model_weighted_sum_witness :
    (evaluate_model 4 pmuA).1 = wsum (term_pairs pmuA 0 0 (energy_model 4)) ∧
    wsum [((2 : Int), (3 : Int)), (5, 7)] = wsum [((5 : Int), (7 : Int)), (2, 3)] := by
  refine ⟨(evaluate_model_weighted_sum 4 pmuA).1, ?_⟩
  exact (evaluate_model_weighted_sum 4 pmuA).2 _ _ (by decide)

/-- power.c `POWER_UPDATE_INTERVAL` (milliseconds). -/
def POWER_UPDATE_INTERVAL : Nat := 1000

/-- Modelled from the spec: the kernel time conversion `jiffies_to_msecs`
(not in src); the spec requires only a monotonic tick unit convertible to
milliseconds, so the tick is modelled as one millisecond and the conversion
is the identity. -/
def jiffies_to_msecs (j : Nat) : Nat := j

/-- power.c `struct current_energy_usage`: the per-CPU accumulator
(`joule` = energy integral of the current window, `watt` = last computed
average power, `time` = window start in jiffies, `disabled` = monitoring
disabled because of user-mode counter access). -/
structure Usage where
  joule : Int
  watt : Int
  time : Nat
  disabled : Bool
deriving DecidableEq

/-- The zero-initialized per-CPU static accumulator. -/
def usage0 : Usage := ⟨0, 0, 0, false⟩

/-- The steady-evaluation branch of `power_evaluate_pmu` (bank found
running): write back `cr` with the enable bit cleared, evaluate the model,
accumulate into `joule` (s64 add), and close the averaging window if the
elapsed milliseconds strictly exceed `POWER_UPDATE_INTERVAL` (signed
truncating division `div64_s64`, modelled by `Int.tdiv`). -/
def steady_branch (cpu now : Nat) (cr : Nat) (u : Usage) (st : PmuState) : Usage × PmuState :=
  let st := wr_PMCR st (cr &&& 0xfffffffe)
  let ev := evaluate_model cpu st
  let joule := wrap64 (u.joule + ev.1)
  let d := jiffies_to_msecs (sub32 now u.time)
  if POWER_UPDATE_INTERVAL < d then
    ({ u with joule := 0, watt := Int.tdiv joule (d : Int), time := u32 now }, ev.2)
  else
    ({ u with joule := joule }, ev.2)

/-- The reinitialization branch of `power_evaluate_pmu` (bank found not
running: first call, or CPU previously disabled): program the model's
events and zero the accumulator. -/
def reinit_branch (cpu now : Nat) (u : Usage) (st : PmuState) : Usage × PmuState :=
  ({ u with joule := 0, watt := 0, time := u32 now }, init_pmu cpu st)

/-- The common tail of every non-early-exit path of `power_evaluate_pmu`:
reset the programmable slots, reset the cycle counter, re-enable the bank. -/
def tick_tail (r : Usage × PmuState) : Usage × PmuState :=
  (r.1, enable_pmn (reset_ccnt (reset_pmn r.2)))

/-- power.c `power_evaluate_pmu`: the per-CPU tick handler. If user-mode
access to the counters is enabled, zero both accumulators, set the disabled
flag and exit early; otherwise (disabling the bank first if the previous
tick was in the disabled state) take the steady-evaluation branch when the
bank is running and the reinitialization branch when it is not, and finish
with the common reset-and-restart tail. -/
def power_evaluate_pmu (cpu now : Nat) (u : Usage) (st : PmuState) : Usage × PmuState :=
  if rd_PMUSERENR st ≠ 0 then
    ({ u with joule := 0, watt := 0, disabled := true }, st)
  else
    let st := if u.disabled then disable_pmn st else st
    let u := { u with disabled := false }
    let cr := rd_PMCR st
    if cr &&& 1 ≠ 0 then
      tick_tail (steady_branch cpu now cr u st)
    else
      tick_tail (reinit_branch cpu now u st)

/-- The accumulator states reachable from the zero-initialized state by any
sequence of tick-handler invocations, with arbitrary bank states and clock
values at each tick. -/
inductive ReachableUsage : Usage → Prop
  | init : ReachableUsage usage0
  | step (cpu now : Nat) (st : PmuState) (u : Usage) :
      ReachableUsage u → ReachableUsage (power_evaluate_pmu cpu now u st).1

/-- A bank state with user-mode counter access enabled. -/
def pmuUser : PmuState := { pmuA with userenr := 1 }

/-- An accumulator state with monitoring disabled and stale values. -/
def usageDis : Usage := ⟨5, 7, 3, true⟩

theorem disable_pmn_en (st : PmuState) : (disable_pmn st).en = false := by
  by_cases hen : st.en <;>
    simp [disable_pmn, rd_PMCR, hen, wr_PMCR] <;> decide

theorem enable_pmn_fields (st : PmuState) :
    (∀ i, (enable_pmn st).evcntr i = st.evcntr i) ∧
    (enable_pmn st).ccnt = st.ccnt ∧ (enable_pmn st).en = true := by
  have b0 : (u32 1).testBit 0 = true := by decide
  have b1 : (u32 1).testBit 1 = false := by decide
  have b2 : (u32 1).testBit 2 = false := by decide
  have hor : rd_PMCR (wr_PMCNTENSET st 0xffffffff) ||| 1 = 1 := by
    by_cases hen : st.en <;> simp [rd_PMCR, wr_PMCNTENSET, hen]
  refine ⟨fun i => ?_, ?_, ?_⟩ <;>
  · simp only [enable_pmn, hor]
    simp [wr_PMCR, wr_PMCNTENSET, b0, b1, b2]

/-- Claim C3: on every steady (bank-running, monitoring-enabled) tick the
averaging window closes if and only if the elapsed milliseconds since
`time` strictly exceed `POWER_UPDATE_INTERVAL` (1000); on close, `watt` is
set to the accumulated `joule` divided by the actual elapsed time with
truncating signed division, `joule` is reset to zero and `time` is advanced
to the current jiffies; on a non-closing tick `watt`, `time` and `disabled`
are all unchanged and only `joule` accumulates. -/
theorem steady_tick_window (cpu now : Nat) (u : Usage) (st : PmuState)
    (hu : rd_PMUSERENR st = 0) (hd : u.disabled = false) (he : st.en = true) :
    (power_evaluate_pmu cpu now u st).1 =
      (if POWER_UPDATE_INTERVAL < jiffies_to_msecs (sub32 now u.time) then
        { joule := 0,
          watt := Int.tdiv (wrap64 (u.joule + (evaluate_model cpu (wr_PMCR st 0)).1))
                    ((jiffies_to_msecs (sub32 now u.time) : Int)),
          time := u32 now, disabled := false }
      else
        { joule := wrap64 (u.joule + (evaluate_model cpu (wr_PMCR st 0)).1),
          watt := u.watt, time := u.time, disabled := false } : Usage) := by
  obtain ⟨uj, uw, ut, ud⟩ := u
  simp only [] at hd
  subst hd
  have hne : ¬ rd_PMUSERENR st ≠ 0 := by simp [hu]
  have hcr : rd_PMCR st = 1 := by simp [rd_PMCR, he]
  have hand0 : (1 : Nat) &&& 0xfffffffe = 0 := by decide
  have hand1 : (1 : Nat) &&& 1 ≠ 0 := by decide
  unfold power_evaluate_pmu
  rw [if_neg hne]
  simp only [Bool.false_eq_true, if_false, hcr, hand1, if_true, tick_tail,
    steady_branch, hand0]
  by_cases hlt : POWER_UPDATE_INTERVAL < jiffies_to_msecs (sub32 now ut) <;>
    simp [hlt]

set_option maxRecDepth 8000 in
/-- Witness for claim C3: a non-closing tick (5 ms elapsed) accumulates
only, a closing tick (2000 ms elapsed) divides, resets and advances. -/
theorem steady_tick_window_witness :
    (power_evaluate_pmu 0 5 usage0 pmuA).1 = ⟨1586257, 0, 0, false⟩ ∧
    (power_evaluate_pmu 0 2000 usage0 pmuA).1 = ⟨0, 793, 2000, false⟩ := by
  constructor
  · exact (steady_tick_window 0 5 usage0 pmuA (by decide) (by decide)
      (by decide)).trans (by decide)
  · exact (steady_tick_window 0 2000 usage0 pmuA (by decide) (by decide)
      (by decide)).trans (by decide)

theorem tick_disabled_false (cpu now : Nat) (u : Usage) (st : PmuState)
    (h : rd_PMUSERENR st = 0) :
    (power_evaluate_pmu cpu now u st).1.disabled = false := by
  have hne : ¬ rd_PMUSERENR st ≠ 0 := by simp [h]
  unfold power_evaluate_pmu
  rw [if_neg hne]
  by_cases hc : rd_PMCR (if u.disabled then disable_pmn st else st) &&& 1 ≠ 0 <;>
    simp only [hc, if_true, if_false, tick_tail, steady_branch, reinit_branch] <;>
    split_ifs <;> rfl

/-- Claim C4: in every accumulator state reachable by any sequence of
tick-handler invocations, a set `disabled` flag implies both the energy
integral and the average power are zero. -/
theorem monitoring_disabled_zeroed (u : Usage) (hr : ReachableUsage u)
    (hd : u.disabled = true) : u.joule = 0 ∧ u.watt = 0 := by
  induction hr with
  | init => exact absurd hd (by decide)
  | step cpu now st u' _ _ =>
    by_cases h : rd_PMUSERENR st = 0
    · rw [tick_disabled_false cpu now u' st h] at hd
      exact absurd hd (by decide)
    · have hne : rd_PMUSERENR st ≠ 0 := h
      unfold power_evaluate_pmu at hd ⊢
      rw [if_pos hne] at hd ⊢
      exact ⟨rfl, rfl⟩

/-- Witness for claim C4 at a concrete reachable state (one tick with
user-mode access enabled). -/
theorem monitoring_disabled_zeroed_witness :
    (power_evaluate_pmu 0 5 usage0 pmuUser).1.joule = 0 ∧
    (power_evaluate_pmu 0 5 usage0 pmuUser).1.watt = 0 :=
  monitoring_disabled_zeroed _
    (ReachableUsage.step 0 5 pmuUser usage0 ReachableUsage.init) (by decide)

/-- Claim C6: on a tick with user-mode access detected the handler zeroes
both accumulators, sets the disabled flag and exits early with the bank
untouched; on the first tick after user access is revoked from the disabled
state, the handler disables the bank first, therefore takes the
reinitialization branch (not the steady branch), and monitoring recovers
(the disabled flag clears). -/
theorem user_access_disable_and_recover (cpu now : Nat) (u : Usage) (st : PmuState) :
    (rd_PMUSERENR st ≠ 0 →
      power_evaluate_pmu cpu now u st
        = ({ u with joule := 0, watt := 0, disabled := true }, st)) ∧
    (rd_PMUSERENR st = 0 → u.disabled = true →
      power_evaluate_pmu cpu now u st
          = tick_tail (reinit_branch cpu now { u with disabled := false } (disable_pmn st)) ∧
      (power_evaluate_pmu cpu now u st).1.disabled = false) := by
  constructor
  · intro h
    unfold power_evaluate_pmu
    rw [if_pos h]
  · intro h hd
    have hne : ¬ rd_PMUSERENR st ≠ 0 := by simp [h]
    have hcr : rd_PMCR (disable_pmn st) = 0 := by
      simp [rd_PMCR, disable_pmn_en]
    refine ⟨?_, tick_disabled_false cpu now u st h⟩
    unfold power_evaluate_pmu
    rw [if_neg hne]
    simp only [hd, if_true, hcr]
    norm_num

/-- Witness for claim C6: the early-exit conjunct at a bank with user
access enabled, the recovery conjunct at a disabled accumulator with user
access revoked. -/
theorem user_access_disable_and_recover_witness :
    power_evaluate_pmu 0 9 usage0 pmuUser
      = ({ usage0 with joule := 0, watt := 0, disabled := true }, pmuUser) ∧
    power_evaluate_pmu 0 9 usageDis pmuA
      = tick_tail (reinit_branch 0 9 { usageDis with disabled := false }
          (disable_pmn pmuA)) :=
  ⟨(user_access_disable_and_recover 0 9 usage0 pmuUser).1 (by decide),
   ((user_access_disable_and_recover 0 9 usageDis pmuA).2 (by decide) (by decide)).1⟩

theorem tick_tail_clean (r : Usage × PmuState) :
    (∀ i, (tick_tail r).2.evcntr i = 0) ∧ (tick_tail r).2.ccnt = 0 ∧
    (tick_tail r).2.en = true := by
  obtain ⟨p1, p2, p3, p4⟩ := reset_pmn_fields r.2
  obtain ⟨c1, c2, c3, c4⟩ := reset_ccnt_fields (reset_pmn r.2)
  obtain ⟨e1, e2, e3⟩ := enable_pmn_fields (reset_ccnt (reset_pmn r.2))
  exact ⟨fun i => by rw [tick_tail, e1 i, c1 i, p1 i], by rw [tick_tail, e2, c2], by
    rw [tick_tail, e3]⟩

/-- Claim C7: every tick that does not take the monitoring-disabled early
exit — steady or reinitializing — leaves every programmable slot zeroed,
the cycle counter zeroed, and the bank enabled (running). -/
theorem tick_leaves_bank_clean (cpu now : Nat) (u : Usage) (st : PmuState)
    (h : rd_PMUSERENR st = 0) :
    (∀ i, (power_evaluate_pmu cpu now u st).2.evcntr i = 0) ∧
    (power_evaluate_pmu cpu now u st).2.ccnt = 0 ∧
    (power_evaluate_pmu cpu now u st).2.en = true := by
  have hne : ¬ rd_PMUSERENR st ≠ 0 := by simp [h]
  unfold power_evaluate_pmu
  rw [if_neg hne]
  by_cases hc : rd_PMCR (if u.disabled then disable_pmn st else st) &&& 1 ≠ 0
  · rw [if_pos hc]
    exact tick_tail_clean _
  · rw [if_neg hc]
    exact tick_tail_clean _

/-- Witness for claim C7 on a concrete running bank. -/
theorem tick_leaves_bank_clean_witness :
    (power_evaluate_pmu 0 5 usage0 pmuA).2.evcntr 3 = 0 ∧
    (power_evaluate_pmu 0 5 usage0 pmuA).2.ccnt = 0 ∧
    (power_evaluate_pmu 0 5 usage0 pmuA).2.en = true := by
  obtain ⟨h1, h2, h3⟩ := tick_leaves_bank_clean 0 5 usage0 pmuA (by decide)
  exact ⟨h1 3, h2, h3⟩

/-- The two frequency targets the bang-bang controller can request
(`policy->min` with `CPUFREQ_RELATION_L`, or `policy->max`). -/
inductive FreqTarget
  | fmin
  | fmax
deriving DecidableEq

/-- One iteration of the decision logic of power.c `powerlimitd`, over the
per-CPU (power_limit, joule) pairs of the frequency domain
(`policy->related_cpus`): accumulate `limit` and `total_usage` in s64 and
request minimum frequency iff `limit > 0` and
`limit < div64_s64(total_usage, POWER_UPDATE_INTERVAL)`, maximum frequency
otherwise. -/
def powerlimitd_decision (cpus : List (Int × Int)) : FreqTarget :=
  let s := cpus.foldl (fun acc p => (wrap64 (acc.1 + p.1), wrap64 (acc.2 + p.2))) (0, 0)
  if 0 < s.1 then
    if s.1 < Int.tdiv s.2 (POWER_UPDATE_INTERVAL : Int) then FreqTarget.fmin
    else FreqTarget.fmax
  else FreqTarget.fmax

theorem powerlimitd_fold (l : List (Int × Int)) : ∀ a b : Int,
    l.foldl (fun acc p => (wrap64 (acc.1 + p.1), wrap64 (acc.2 + p.2)))
        (wrap64 a, wrap64 b)
      = (wrap64 (a + (l.map Prod.fst).sum), wrap64 (b + (l.map Prod.snd).sum)) := by
  induction l with
  | nil => intro a b; simp
  | cons p r ih =>
    intro a b
    simp only [List.foldl_cons, List.map_cons, List.sum_cons]
    rw [wrap64_wrap_add a p.1, wrap64_wrap_add b p.2, ih (a + p.1) (b + p.2)]
    rw [add_assoc, add_assoc]

/-- Claim C5: each PowerLimiter iteration computes `limit` as the s64 sum
of the domain's budgets and `total_usage` as the s64 sum of its energy
integrals; a non-positive limit requests maximum frequency, otherwise
minimum frequency exactly when `total_usage` divided (truncating) by the
window duration strictly exceeds the limit; budgets {500, 500} with an
aggregate rate of 1200 give minimum frequency and a rate of 800 maximum
frequency. -/
theorem powerlimitd_bang_bang :
    (∀ cpus : List (Int × Int),
      powerlimitd_decision cpus =
        if wrap64 ((cpus.map Prod.fst).sum) ≤ 0 then FreqTarget.fmax
        else if wrap64 ((cpus.map Prod.fst).sum)
            < Int.tdiv (wrap64 ((cpus.map Prod.snd).sum)) (POWER_UPDATE_INTERVAL : Int)
          then FreqTarget.fmin else FreqTarget.fmax) ∧
    powerlimitd_decision [(500, 600000), (500, 600000)] = FreqTarget.fmin ∧
    powerlimitd_decision [(500, 400000), (500, 400000)] = FreqTarget.fmax := by
  refine ⟨?_, by decide, by decide⟩
  intro cpus
  unfold powerlimitd_decision
  rw [show ((0 : Int), (0 : Int)) = (wrap64 0, wrap64 0) from by decide]
  rw [powerlimitd_fold cpus 0 0]
  simp only [zero_add]
  by_cases hpos : 0 < wrap64 ((cpus.map Prod.fst).sum)
  · rw [if_pos hpos,
      if_neg (show ¬ wrap64 ((cpus.map Prod.fst).sum) ≤ 0 from by omega)]
  · rw [if_neg hpos,
      if_pos (show wrap64 ((cpus.map Prod.fst).sum) ≤ 0 from by omega)]

/-- The ASCII character of a decimal digit. -/
def dchar (d : Nat) : Char := Char.ofNat (48 + d)

/-- The decimal digit value of an ASCII character. -/
def dval (c : Char) : Nat := c.toNat - 48

/-- Whether a character is an ASCII decimal digit. -/
def isDig (c : Char) : Bool := 48 ≤ c.toNat && c.toNat ≤ 57

/-- Decimal digit string of a natural number (fueled recursion on the
number of digits; `fuel > n` suffices). -/
def natCharsF : Nat → Nat → List Char
  | 0, _ => []
  | fuel+1, n =>
    if n < 10 then [dchar n] else natCharsF fuel (n / 10) ++ [dchar (n % 10)]

/-- Decimal digit string of a natural number. -/
def natChars (n : Nat) : List Char := natCharsF (n + 1) n

/-- Value of a decimal digit string. -/
def parseNat (ds : List Char) : Nat := ds.foldl (fun a c => a * 10 + dval c) 0

/-- Parse a nonempty all-digit string, `none` otherwise. -/
def parse_digits (ds : List Char) : Option Nat :=
  if ds.isEmpty then none
  else if ds.all isDig then some (parseNat ds) else none

/-- Modelled from the spec: the kernel string-to-s64 parser `kstrtos64`
(not in src). The spec requires only that a numeric write parses to the
value and a non-numeric write is rejected with a failure indication; the
model accepts an optional leading minus sign followed by decimal digits,
rejects everything else, and rejects values outside the signed 64-bit
range. -/
def kstrtos64 (buf : List Char) : Option Int :=
  if buf.head? = some '-' then
    match parse_digits buf.tail with
    | some m => if (m : Int) ≤ 2^63 then some (-(m : Int)) else none
    | none => none
  else
    match parse_digits buf with
    | some m => if (m : Int) ≤ 2^63 - 1 then some (m : Int) else none
    | none => none

/-- Canonical decimal string of a signed 64-bit value. -/
def s64Chars (v : Int) : List Char :=
  if v < 0 then '-' :: natChars (-v).toNat else natChars v.toNat

/-- power.c `store_power_limit`: parse the written buffer with `kstrtos64`;
on success store the parsed value in the CPU's `power_limit` and return
`count`, on failure return the negative error and leave every budget
untouched. -/
def store_power_limit (budgets : Nat → Int) (id : Nat) (buf : List Char)
    (count : Nat) : Int × (Nat → Int) :=
  match kstrtos64 buf with
  | some v => ((count : Int), fun c => if c = id then v else budgets c)
  | none => (-22, budgets)

/-- power.c `show_power_limit`: read the CPU's stored `power_limit`. -/
def show_power_limit (budgets : Nat → Int) (id : Nat) : Int := budgets id

/-- Claim C8: a write whose input does not parse returns a failure
indication (negative) and leaves every stored budget unchanged; a write
whose input parses to `v` stores `v` for that CPU and reports success by
returning `count`. -/
theorem store_power_limit_boundary (budgets : Nat → Int) (id : Nat)
    (buf : List Char) (count : Nat) :
    (kstrtos64 buf = none →
      (store_power_limit budgets id buf count).1 < 0 ∧
      ∀ c, (store_power_limit budgets id buf count).2 c = budgets c) ∧
    (∀ v, kstrtos64 buf = some v →
      (store_power_limit budgets id buf count).1 = (count : Int) ∧
      (store_power_limit budgets id buf count).2 id = v ∧
      ∀ c, c ≠ id → (store_power_limit budgets id buf count).2 c = budgets c) := by
  constructor
  · intro h
    simp [store_power_limit, h]
  · intro v h
    refine ⟨by simp [store_power_limit, h], by simp [store_power_limit, h], ?_⟩
    intro c hc
    simp [store_power_limit, h, hc]

/-- Witness for claim C8: a non-numeric write fails and retains the prior
budget, a numeric write stores the value and returns the count. -/
theorem store_power_limit_boundary_witness :
    ((store_power_limit (fun _ => 5) 0 ['a'] 1).1 < 0 ∧
     (store_power_limit (fun _ => 5) 0 ['a'] 1).2 0 = 5) ∧
    ((store_power_limit (fun _ => 5) 0 ['4', '2'] 2).1 = 2 ∧
     (store_power_limit (fun _ => 5) 0 ['4', '2'] 2).2 0 = 42) := by
  obtain ⟨hf, _⟩ := store_power_limit_boundary (fun _ => 5) 0 ['a'] 1
  obtain ⟨_, hs⟩ := store_power_limit_boundary (fun _ => 5) 0 ['4', '2'] 2
  obtain ⟨hs1, hs2, _⟩ := hs 42 (by decide)
  exact ⟨⟨(hf (by decide)).1, (hf (by decide)).2 0⟩, hs1, hs2⟩

theorem dchar_toNat (d : Nat) (h : d < 10) : (dchar d).toNat = 48 + d := by
  interval_cases d <;> decide

theorem dchar_isDig (d : Nat) (h : d < 10) : isDig (dchar d) = true := by
  interval_cases d <;> decide

theorem natCharsF_parse (fuel : Nat) : ∀ n : Nat, n < fuel →
    parseNat (natCharsF fuel n) = n := by
  induction fuel with
  | zero => intro n h; omega
  | succ f ih =>
    intro n h
    by_cases h10 : n < 10
    · simp only [natCharsF, if_pos h10, parseNat, List.foldl, dval,
        dchar_toNat n h10]
      omega
    · have hd : n / 10 < f := by omega
      simp only [natCharsF, if_neg h10, parseNat, List.foldl_append, List.foldl]
      have hv := ih (n / 10) hd
      simp only [parseNat] at hv
      rw [hv, dval, dchar_toNat (n % 10) (by omega)]
      omega

theorem natCharsF_digits (fuel : Nat) : ∀ n : Nat, n < fuel →
    (natCharsF fuel n).all isDig = true := by
  induction fuel with
  | zero => intro n h; omega
  | succ f ih =>
    intro n h
    by_cases h10 : n < 10
    · simp [natCharsF, if_pos h10, dchar_isDig n h10]
    · have hd : n / 10 < f := by omega
      simp [natCharsF, if_neg h10, List.all_append, ih (n / 10) hd,
        dchar_isDig (n % 10) (by omega)]

theorem natCharsF_ne_nil (fuel n : Nat) (h : n < fuel) : natCharsF fuel n ≠ [] := by
  cases fuel with
  | zero => omega
  | succ f =>
    by_cases h10 : n < 10 <;> simp [natCharsF, h10]

theorem parse_digits_natChars (n : Nat) : parse_digits (natChars n) = some n := by
  have hne := natCharsF_ne_nil (n + 1) n (by omega)
  have hdig := natCharsF_digits (n + 1) n (by omega)
  have hval := natCharsF_parse (n + 1) n (by omega)
  unfold parse_digits natChars
  rw [if_neg (by simpa using hne), if_pos (by simpa using hdig)]
  unfold natChars at hval
  rw [hval]

theorem natChars_head_not_minus (n : Nat) (c : Char) (rest : List Char)
    (h : natChars n = c :: rest) : ¬ c = '-' := by
  intro hc
  have hdig := natCharsF_digits (n + 1) n (by omega)
  unfold natChars at h
  rw [h, hc] at hdig
  simp [List.all_cons] at hdig
  exact absurd hdig.1 (by decide)

theorem kstrtos64_s64Chars (v : Int) (h1 : -(2^63) ≤ v) (h2 : v ≤ 2^63 - 1) :
    kstrtos64 (s64Chars v) = some v := by
  by_cases hv : v < 0
  · have hm : (((-v).toNat : Int)) = -v := Int.toNat_of_nonneg (by omega)
    simp only [s64Chars, if_pos hv]
    unfold kstrtos64
    rw [if_pos (show ('-' :: natChars (-v).toNat).head? = some '-' from rfl),
      List.tail_cons, parse_digits_natChars]
    show (if (((-v).toNat : Int)) ≤ 2^63 then some (-(((-v).toNat : Int))) else none)
      = some v
    rw [hm, if_pos (by omega), neg_neg]
  · have hm : ((v.toNat : Int)) = v := Int.toNat_of_nonneg (by omega)
    obtain ⟨c, rest, hc⟩ : ∃ c rest, natChars v.toNat = c :: rest := by
      cases hn : natChars v.toNat with
      | nil => exact absurd hn (natCharsF_ne_nil _ _ (by omega))
      | cons c rest => exact ⟨c, rest, rfl⟩
    have hhd : ¬ (natChars v.toNat).head? = some '-' := by
      rw [hc]
      intro h
      simp only [List.head?_cons, Option.some.injEq] at h
      exact natChars_head_not_minus v.toNat c rest hc h
    simp only [s64Chars, if_neg hv]
    unfold kstrtos64
    rw [if_neg hhd, parse_digits_natChars]
    show (if ((v.toNat : Int)) ≤ 2^63 - 1 then some ((v.toNat : Int)) else none)
      = some v
    rw [hm, if_pos (by omega)]

/-- Claim C10: for every CPU and every signed 64-bit value v (negative
included), a successful write of v's decimal representation through
`store_power_limit` followed by `show_power_limit` on the same CPU returns
exactly v — an exact set/get round trip with no clamping, scaling, or range
restriction beyond the s64 type — and other CPUs' budgets are untouched. -/
theorem power_limit_round_trip (budgets : Nat → Int) (id count : Nat) (v : Int)
    (h1 : -(2^63) ≤ v) (h2 : v ≤ 2^63 - 1) :
    (store_power_limit budgets id (s64Chars v) count).1 = (count : Int) ∧
    show_power_limit (store_power_limit budgets id (s64Chars v) count).2 id = v ∧
    ∀ c, c ≠ id →
      (store_power_limit budgets id (s64Chars v) count).2 c = budgets c := by
  have h := kstrtos64_s64Chars v h1 h2
  refine ⟨by simp [store_power_limit, h], by simp [store_power_limit, show_power_limit, h], ?_⟩
  intro c hc
  simp [store_power_limit, h, hc]

/-- Witness for claim C10 at the negative value -42. -/
theorem power_limit_round_trip_witness :
    (store_power_limit (fun _ => 0) 2 (s64Chars (-42)) 7).1 = 7 ∧
    show_power_limit (store_power_limit (fun _ => 0) 2 (s64Chars (-42)) 7).2 2 = -42 := by
  obtain ⟨a, b, _⟩ := power_limit_round_trip (fun _ => 0) 2 7 (-42)
    (by norm_num) (by norm_num)
  exact ⟨a, b⟩
